import Mathlib

/-!
Verification of the flowr graph / rule / flow / state-machine core
(`flowr/models.py`).

The Django models are shallowly embedded:

* a `DCCGraph` together with its `Node` rows becomes a `Graph`: a finite set
  of node ids, a finite set of directed parent→child edges, and a root id.
  The source keeps two many-to-many relations (`parents`, `children`) that
  every mutation updates symmetrically, so a single edge set represents both;
  `parentsOf`/`childrenOf` are the two derived views.
* the recursive visited-set traversals `_depth_ascend` / `_depth_descend`
  (and `RuleSet._depth_cyto_traverse`) are rendered with an explicit worklist
  (`dfsCore`): the for-loop recursion of the source becomes pushing the
  neighbour list onto the stack.  The resulting visited set is identical;
  only the expansion order differs, and no exported result depends on order.
* `AttributeError` failures become an `Err` value per failure kind
  (the spec's error taxonomy is by kind, not exception class).
* rule classes (`Rule` subclasses) become entries of a `RuleSys` registry
  keyed by their unique label (`_MetaRule` guarantees one label per class);
  the display name and the label are collapsed into that one identifier.
* `on_enter` / `on_leave` callbacks, cursor assignment and `save()` become an
  explicit action trace (`Act`), so callback ordering is observable.
-/

namespace Flowr

/-- A `DCCGraph` with its `Node` rows: node ids, directed edges, root id. -/
structure Graph where
  nodes : Finset Nat
  edges : Finset (Nat × Nat)
  root : Nat
deriving DecidableEq

/-- Source `node.children.all()`: targets of the edges leaving `n`. -/
def childrenOf (g : Graph) (n : Nat) : Finset Nat :=
  (g.edges.filter (fun e => e.1 = n)).image Prod.snd

/-- Source `node.parents.all()`: sources of the edges entering `n`. -/
def parentsOf (g : Graph) (n : Nat) : Finset Nat :=
  (g.edges.filter (fun e => e.2 = n)).image Prod.fst

/-- Every id mentioned by the graph: nodes plus edge endpoints.  Used only
as the finite universe bounding the traversals. -/
def verts (g : Graph) : Finset Nat :=
  g.nodes ∪ g.edges.image Prod.fst ∪ g.edges.image Prod.snd

lemma parentsOf_empty_of_not_mem_verts (g : Graph) (a : Nat) (h : a ∉ verts g) :
    parentsOf g a = ∅ := by
  ext x
  simp only [parentsOf, Finset.mem_image, Finset.mem_filter, Finset.not_mem_empty, iff_false]
  rintro ⟨e, ⟨he, hsnd⟩, _⟩
  exact h (by
    simp only [verts, Finset.mem_union, Finset.mem_image]
    exact Or.inr ⟨e, he, hsnd⟩)

lemma childrenOf_empty_of_not_mem_verts (g : Graph) (a : Nat) (h : a ∉ verts g) :
    childrenOf g a = ∅ := by
  ext x
  simp only [childrenOf, Finset.mem_image, Finset.mem_filter, Finset.not_mem_empty, iff_false]
  rintro ⟨e, ⟨he, hfst⟩, _⟩
  exact h (by
    simp only [verts, Finset.mem_union, Finset.mem_image]
    exact Or.inl (Or.inr ⟨e, he, hfst⟩))

/-- Worklist rendering of the source's recursive visited-set traversal
(`_depth_ascend` / `_depth_descend` / `_depth_cyto_traverse`).  Popping `p`:
if `stop p` holds (the `limit and parent.is_root()` guard) `p` is added to
`visited` without being expanded; an unvisited `p` is added and its
adjacency list is pushed.  `hadj` bounds the traversal inside the finite
universe `U` for termination. -/
def dfsCore {α : Type} [DecidableEq α] (U : Finset α) (adj : α → List α)
    (hadj : ∀ a, a ∉ U → adj a = []) (stop : α → Bool) :
    List α → Finset α → Finset α
  | [], vis => vis
  | p :: rest, vis =>
    if stop p then dfsCore U adj hadj stop rest (insert p vis)
    else if hp : p ∈ vis then dfsCore U adj hadj stop rest vis
    else dfsCore U adj hadj stop (adj p ++ rest) (insert p vis)
termination_by stack vis => ((U \ vis).card, stack.length)
decreasing_by
  · have hle : ((U \ insert p vis).card ≤ (U \ vis).card) :=
      Finset.card_le_card
        (Finset.sdiff_subset_sdiff (Finset.Subset.refl U) (Finset.subset_insert _ _))
    rcases lt_or_eq_of_le hle with hlt | heq
    · exact Prod.Lex.left _ _ hlt
    · rw [heq]
      exact Prod.Lex.right _ (Nat.lt_succ_self _)
  · exact Prod.Lex.right _ (Nat.lt_succ_self _)
  · by_cases hU : p ∈ U
    · have hss : (U \ insert p vis) ⊂ (U \ vis) := by
        apply Finset.ssubset_iff_of_subset
          (Finset.sdiff_subset_sdiff (Finset.Subset.refl U) (Finset.subset_insert _ _)) |>.mpr
        exact ⟨p, Finset.mem_sdiff.mpr ⟨hU, hp⟩, by simp⟩
      exact Prod.Lex.left _ _ (Finset.card_lt_card hss)
    · have hadjp : adj p = [] := hadj p hU
      have hcard : (U \ insert p vis) = (U \ vis) := by
        rw [Finset.sdiff_insert, Finset.erase_eq_of_not_mem]
        intro hmem
        exact hU (Finset.mem_sdiff.mp hmem).1
      rw [hcard, hadjp]
      exact Prod.Lex.right _ (by simp [Nat.lt_succ_self])

lemma dfsCore_nil {α : Type} [DecidableEq α] (U : Finset α) (adj : α → List α)
    (hadj : ∀ a, a ∉ U → adj a = []) (stop : α → Bool) (vis : Finset α) :
    dfsCore U adj hadj stop [] vis = vis := by
  rw [dfsCore]

lemma dfsCore_mono {α : Type} [DecidableEq α] (U : Finset α) (adj : α → List α)
    (hadj : ∀ a, a ∉ U → adj a = []) (stop : α → Bool) :
    ∀ stack vis, vis ⊆ dfsCore U adj hadj stop stack vis := by
  intro stack vis
  induction stack, vis using dfsCore.induct U adj hadj stop with
  | case1 vis => rw [dfsCore_nil]
  | case2 p rest vis hstop ih =>
    rw [dfsCore, if_pos hstop]
    exact Finset.Subset.trans (Finset.subset_insert _ _) ih
  | case3 p rest vis hstop hp ih =>
    rw [dfsCore, if_neg (by simp [hstop]), dif_pos hp]
    exact ih
  | case4 p rest vis hstop hp ih =>
    rw [dfsCore, if_neg (by simp [hstop]), dif_neg hp]
    exact Finset.Subset.trans (Finset.subset_insert _ _) ih

lemma dfsCore_stack_mem {α : Type} [DecidableEq α] (U : Finset α) (adj : α → List α)
    (hadj : ∀ a, a ∉ U → adj a = []) (stop : α → Bool) :
    ∀ stack vis u, u ∈ stack → u ∈ dfsCore U adj hadj stop stack vis := by
  intro stack vis
  induction stack, vis using dfsCore.induct U adj hadj stop with
  | case1 vis => intro u hu; exact absurd hu (List.not_mem_nil u)
  | case2 p rest vis hstop ih =>
    intro u hu
    rw [dfsCore, if_pos hstop]
    rcases List.mem_cons.mp hu with rfl | hu
    · exact dfsCore_mono U adj hadj stop rest _ (Finset.mem_insert_self u vis)
    · exact ih u hu
  | case3 p rest vis hstop hp ih =>
    intro u hu
    rw [dfsCore, if_neg (by simp [hstop]), dif_pos hp]
    rcases List.mem_cons.mp hu with rfl | hu
    · exact dfsCore_mono U adj hadj stop rest vis hp
    · exact ih u hu
  | case4 p rest vis hstop hp ih =>
    intro u hu
    rw [dfsCore, if_neg (by simp [hstop]), dif_neg hp]
    rcases List.mem_cons.mp hu with rfl | hu
    · exact dfsCore_mono U adj hadj stop _ _ (Finset.mem_insert_self u vis)
    · exact ih u (List.mem_append_right _ hu)

/-- The traversal expands every unvisited non-stopped member of its result:
all its neighbours end up in the result as well. -/
lemma dfsCore_closed {α : Type} [DecidableEq α] (U : Finset α) (adj : α → List α)
    (hadj : ∀ a, a ∉ U → adj a = []) (stop : α → Bool) :
    ∀ stack vis x, x ∈ dfsCore U adj hadj stop stack vis → x ∉ vis → stop x = false →
      ∀ y ∈ adj x, y ∈ dfsCore U adj hadj stop stack vis := by
  intro stack vis
  induction stack, vis using dfsCore.induct U adj hadj stop with
  | case1 vis =>
    intro x hx hxv
    rw [dfsCore_nil] at hx
    exact absurd hx hxv
  | case2 p rest vis hstop ih =>
    intro x hx hxv hxs y hy
    rw [dfsCore, if_pos hstop] at hx ⊢
    have hxp : x ≠ p := by
      rintro rfl; rw [hstop] at hxs; exact Bool.true_eq_false.mp hxs
    exact ih x hx (by simp [hxp, hxv]) hxs y hy
  | case3 p rest vis hstop hp ih =>
    intro x hx hxv hxs y hy
    rw [dfsCore, if_neg (by simp [hstop]), dif_pos hp] at hx ⊢
    exact ih x hx hxv hxs y hy
  | case4 p rest vis hstop hp ih =>
    intro x hx hxv hxs y hy
    rw [dfsCore, if_neg (by simp [hstop]), dif_neg hp] at hx ⊢
    by_cases hxp : x = p
    · subst hxp
      exact dfsCore_stack_mem U adj hadj stop _ _ y (List.mem_append_left _ hy)
    · exact ih x hx (by simp [hxp, hxv]) hxs y hy

/-- Paths of the bounded traversal: `v` is reached from `u` by following
`adj` edges, never expanding a vertex satisfying `stop` (the endpoint itself
may satisfy `stop`). -/
inductive ReachesVia {α : Type} (adj : α → List α) (stop : α → Bool) : α → α → Prop
  | base {u v : α} : v ∈ adj u → ReachesVia adj stop u v
  | step {u w v : α} : ReachesVia adj stop u w → stop w = false → v ∈ adj w →
      ReachesVia adj stop u v

lemma ReachesVia.trans_of {α : Type} {adj : α → List α} {stop : α → Bool}
    {a b c : α} (hab : ReachesVia adj stop a b) (hb : stop b = false)
    (hbc : ReachesVia adj stop b c) : ReachesVia adj stop a c := by
  induction hbc with
  | base h => exact ReachesVia.step hab hb h
  | step _ hw h ih => exact ReachesVia.step ih hw h

lemma dfsCore_sound {α : Type} [DecidableEq α] (U : Finset α) (adj : α → List α)
    (hadj : ∀ a, a ∉ U → adj a = []) (stop : α → Bool) :
    ∀ stack vis v, v ∈ dfsCore U adj hadj stop stack vis →
      v ∈ vis ∨ ∃ u ∈ stack, u = v ∨ (stop u = false ∧ ReachesVia adj stop u v) := by
  intro stack vis
  induction stack, vis using dfsCore.induct U adj hadj stop with
  | case1 vis =>
    intro v hv
    rw [dfsCore_nil] at hv
    exact Or.inl hv
  | case2 p rest vis hstop ih =>
    intro v hv
    rw [dfsCore, if_pos hstop] at hv
    rcases ih v hv with hvin | ⟨u, hu, hphi⟩
    · rcases Finset.mem_insert.mp hvin with rfl | hvv
      · exact Or.inr ⟨v, List.mem_cons_self v rest, Or.inl rfl⟩
      · exact Or.inl hvv
    · exact Or.inr ⟨u, List.mem_cons_of_mem p hu, hphi⟩
  | case3 p rest vis hstop hp ih =>
    intro v hv
    rw [dfsCore, if_neg (by simp [hstop]), dif_pos hp] at hv
    rcases ih v hv with hvin | ⟨u, hu, hphi⟩
    · exact Or.inl hvin
    · exact Or.inr ⟨u, List.mem_cons_of_mem p hu, hphi⟩
  | case4 p rest vis hstop hp ih =>
    intro v hv
    rw [dfsCore, if_neg (by simp [hstop]), dif_neg hp] at hv
    have hps : stop p = false := Bool.not_eq_true _ |>.mp hstop
    rcases ih v hv with hvin | ⟨u, hu, hphi⟩
    · rcases Finset.mem_insert.mp hvin with rfl | hvv
      · exact Or.inr ⟨v, List.mem_cons_self v rest, Or.inl rfl⟩
      · exact Or.inl hvv
    · rcases List.mem_append.mp hu with huadj | hurest
      · refine Or.inr ⟨p, List.mem_cons_self p rest, Or.inr ⟨hps, ?_⟩⟩
        rcases hphi with rfl | ⟨hus, huv⟩
        · exact ReachesVia.base huadj
        · exact ReachesVia.trans_of (ReachesVia.base huadj) hus huv
      · exact Or.inr ⟨u, List.mem_cons_of_mem p hurest, hphi⟩

/-- Full characterisation of a traversal started with an empty visited set. -/
lemma dfsCore_mem_iff {α : Type} [DecidableEq α] (U : Finset α) (adj : α → List α)
    (hadj : ∀ a, a ∉ U → adj a = []) (stop : α → Bool) (stack : List α) (v : α) :
    v ∈ dfsCore U adj hadj stop stack ∅ ↔
      ∃ u ∈ stack, u = v ∨ (stop u = false ∧ ReachesVia adj stop u v) := by
  constructor
  · intro hv
    rcases dfsCore_sound U adj hadj stop stack ∅ v hv with hvin | h
    · exact absurd hvin (Finset.not_mem_empty v)
    · exact h
  · rintro ⟨u, hu, rfl | ⟨hus, huv⟩⟩
    · exact dfsCore_stack_mem U adj hadj stop stack ∅ u hu
    · induction huv with
      | base h =>
        exact dfsCore_closed U adj hadj stop stack ∅ _
          (dfsCore_stack_mem U adj hadj stop stack ∅ u hu) (Finset.not_mem_empty u) hus _ h
      | step hr hw h ih =>
        exact dfsCore_closed U adj hadj stop stack ∅ _ ih
          (Finset.not_mem_empty _) hw _ h

/-- A traversal seeded with the neighbour list of `n` (the way `ancestors`
and `descendents` call `_depth_ascend` / `_depth_descend`) computes exactly
the vertices reachable from `n`. -/
lemma dfsCore_start_mem_iff {α : Type} [DecidableEq α] (U : Finset α) (adj : α → List α)
    (hadj : ∀ a, a ∉ U → adj a = []) (stop : α → Bool) (n v : α) :
    v ∈ dfsCore U adj hadj stop (adj n) ∅ ↔ ReachesVia adj stop n v := by
  rw [dfsCore_mem_iff]
  constructor
  · rintro ⟨u, hu, rfl | ⟨hus, huv⟩⟩
    · exact ReachesVia.base hu
    · exact ReachesVia.trans_of (ReachesVia.base hu) hus huv
  · intro h
    induction h with
    | base h => exact ⟨_, h, Or.inl rfl⟩
    | step hr hw h ih =>
      rcases ih with ⟨u, hu, rfl | ⟨hus, huv⟩⟩
      · exact ⟨u, hu, Or.inr ⟨hw, ReachesVia.base h⟩⟩
      · exact ⟨u, hu, Or.inr ⟨hus, ReachesVia.step huv hw h⟩⟩

/-- Failure kinds of the `AttributeError`s raised by the source, following
the spec's error taxonomy. -/
inductive Err
  | unremovableNode
  | arityExceeded
  | duplicateChild
  | illegalTransition
  | noNextState
  | choiceRequired
  | invalidChoice
deriving DecidableEq

/-- Source `parent.is_root()` under the `limit` flag of the bounded traversals. -/
def Graph.rootStop (g : Graph) (m : Nat) : Bool := decide (m = g.root)

/-- Never-stopping guard used by the unbounded traversals. -/
def noStop (m : Nat) : Bool := false

/-- Source `node.parents.all()` as an iteration list. -/
def parentAdj (g : Graph) (m : Nat) : List Nat := (parentsOf g m).sort (· ≤ ·)

/-- Source `node.children.all()` as an iteration list. -/
def childAdj (g : Graph) (m : Nat) : List Nat := (childrenOf g m).sort (· ≤ ·)

lemma parentAdj_support (g : Graph) : ∀ a, a ∉ verts g → parentAdj g a = [] := by
  intro a ha
  rw [parentAdj, parentsOf_empty_of_not_mem_verts g a ha, Finset.sort_empty]

lemma childAdj_support (g : Graph) : ∀ a, a ∉ verts g → childAdj g a = [] := by
  intro a ha
  rw [childAdj, childrenOf_empty_of_not_mem_verts g a ha, Finset.sort_empty]

/-- Source `Node.ancestors`: depth-ascend from `self`'s parents, then discard
`self` from its own result. -/
def Graph.ancestors (g : Graph) (n : Nat) : Finset Nat :=
  (dfsCore (verts g) (parentAdj g) (parentAdj_support g) noStop (parentAdj g n) ∅).erase n

/-- Source `Node.ancestors_root`: returns empty on the root, otherwise the
depth-ascend bounded by the root. -/
def Graph.ancestors_root (g : Graph) (n : Nat) : Finset Nat :=
  if n = g.root then ∅
  else (dfsCore (verts g) (parentAdj g) (parentAdj_support g) g.rootStop (parentAdj g n) ∅).erase n

/-- Source `Node.descendents`. -/
def Graph.descendents (g : Graph) (n : Nat) : Finset Nat :=
  (dfsCore (verts g) (childAdj g) (childAdj_support g) noStop (childAdj g n) ∅).erase n

/-- Source `Node.descendents_root` (no special case for the root in the source). -/
def Graph.descendents_root (g : Graph) (n : Nat) : Finset Nat :=
  (dfsCore (verts g) (childAdj g) (childAdj_support g) g.rootStop (childAdj g n) ∅).erase n

/-- Source `Node.can_remove`: deletable iff childless, or every child is already
among the node's own root-bounded ancestors. -/
def Graph.can_remove (g : Graph) (n : Nat) : Bool :=
  if (childrenOf g n).card = 0 then true
  else decide (childrenOf g n ⊆ g.ancestors_root n)

/-- Source `node.delete()`: a deleted row disappears together with every
many-to-many edge row touching it. -/
def deleteNode (g : Graph) (n : Nat) : Graph :=
  { nodes := g.nodes.erase n
    edges := g.edges.filter (fun e => ¬(e.1 = n ∨ e.2 = n))
    root := g.root }

/-- Source `Node.remove`: guard with `can_remove`, then delete.  (The data object
the source returns is not modelled; the `self.parents.remove(self)` line
only strips a self-loop that `delete()` wipes anyway.) -/
def Graph.remove (g : Graph) (n : Nat) : Except Err Graph :=
  if ¬ g.can_remove n then Except.error Err.unremovableNode
  else Except.ok (deleteNode g n)

/-- Source `Node.prune`: delete the root-bounded descendants (excluding the root)
then `self`; returns the mutated graph and the ids whose data the source
collects.  The explicit parent-detach loop of the source is subsumed by
deleting `self`. -/
def Graph.prune (g : Graph) (n : Nat) : Graph × Finset Nat :=
  let targets := (g.descendents_root n).erase g.root
  let g1 := (targets.sort (· ≤ ·)).foldl deleteNode g
  (deleteNode g1 n, insert n targets)

/-- Source `Node.prune_list`: the same target set, `self` included, no mutation. -/
def Graph.prune_list (g : Graph) (n : Nat) : Finset Nat :=
  insert n ((g.descendents_root n).erase g.root)

/-- Source `Node.add_child`: a fresh node (id supplied by the store) wired below
`parent`. -/
def Graph.add_child (g : Graph) (parent newId : Nat) : Graph :=
  { nodes := insert newId g.nodes
    edges := insert (parent, newId) g.edges
    root := g.root }

/-- Source `Node.connect_child` for two nodes of the same graph: edge only, no new
node.  (The cross-graph guard of the source compares graph rows and cannot
arise in this single-graph embedding.) -/
def Graph.connect_nodes (g : Graph) (parent child : Nat) : Graph :=
  { g with edges := insert (parent, child) g.edges }

lemma foldl_deleteNode_nodes (l : List Nat) (g : Graph) :
    (l.foldl deleteNode g).nodes = g.nodes \ l.toFinset := by
  induction l generalizing g with
  | nil => simp
  | cons a t ih =>
    rw [List.foldl_cons, ih]
    ext x
    simp only [deleteNode, Finset.mem_sdiff, Finset.mem_erase, List.toFinset_cons,
      Finset.mem_insert]
    tauto

lemma foldl_deleteNode_edges (l : List Nat) (g : Graph) :
    (l.foldl deleteNode g).edges =
      g.edges.filter (fun e => ¬(e.1 ∈ l ∨ e.2 ∈ l)) := by
  induction l generalizing g with
  | nil => simp
  | cons a t ih =>
    rw [List.foldl_cons, ih]
    ext e
    simp only [deleteNode, Finset.mem_filter, List.mem_cons]
    tauto

lemma foldl_deleteNode_root (l : List Nat) (g : Graph) :
    (l.foldl deleteNode g).root = g.root := by
  induction l generalizing g with
  | nil => rfl
  | cons a t ih => rw [List.foldl_cons, ih]; rfl

/-- Shared description of the graph `prune` leaves behind. -/
lemma prune_nodes_eq (g : Graph) (n : Nat) :
    (g.prune n).1.nodes = g.nodes \ g.prune_list n := by
  rw [Graph.prune, Graph.prune_list]
  ext x
  simp only [deleteNode, foldl_deleteNode_nodes, Finset.mem_erase, Finset.mem_sdiff,
    Finset.mem_sort, Finset.mem_insert, List.mem_toFinset]
  tauto

lemma prune_edges_eq (g : Graph) (n : Nat) :
    (g.prune n).1.edges =
      g.edges.filter (fun e => ¬(e.1 ∈ g.prune_list n ∨ e.2 ∈ g.prune_list n)) := by
  rw [Graph.prune, Graph.prune_list]
  ext e
  simp only [deleteNode, foldl_deleteNode_edges, Finset.mem_filter, Finset.mem_sort,
    Finset.mem_insert]
  tauto

lemma prune_deleted_eq (g : Graph) (n : Nat) : (g.prune n).2 = g.prune_list n := rfl

lemma ancestors_root_of_root (g : Graph) : g.ancestors_root g.root = ∅ := by
  rw [Graph.ancestors_root, if_pos rfl]

lemma mem_ancestors_root_iff (g : Graph) (n v : Nat) :
    v ∈ g.ancestors_root n ↔
      n ≠ g.root ∧ v ≠ n ∧ ReachesVia (parentAdj g) g.rootStop n v := by
  rw [Graph.ancestors_root]
  split
  · subst ‹n = g.root›
    simp
  · rw [Finset.mem_erase, dfsCore_start_mem_iff]
    tauto

lemma mem_descendents_root_iff (g : Graph) (n v : Nat) :
    v ∈ g.descendents_root n ↔ v ≠ n ∧ ReachesVia (childAdj g) g.rootStop n v := by
  rw [Graph.descendents_root, Finset.mem_erase, dfsCore_start_mem_iff]

/-- C8: the root-bounded traversals `ancestors_root` / `descendents_root`
may contain the root (when a cycle reaches it) but never expand through it —
a vertex is in the result exactly when a parent/child path from `n` reaches
it without expanding the root (`ReachesVia _ g.rootStop`, whose intermediate
vertices are never the root); `ancestors_root` on the root itself is empty;
and all four traversals exclude the starting node from its own result even
when a cycle makes it reachable from itself. -/
theorem bounded_traversal_correct (g : Graph) (n : Nat) :
    g.ancestors_root g.root = ∅
    ∧ n ∉ g.ancestors n ∧ n ∉ g.descendents n
    ∧ n ∉ g.ancestors_root n ∧ n ∉ g.descendents_root n
    ∧ (∀ v, v ∈ g.ancestors_root n ↔
        n ≠ g.root ∧ v ≠ n ∧ ReachesVia (parentAdj g) g.rootStop n v)
    ∧ (∀ v, v ∈ g.descendents_root n ↔
        v ≠ n ∧ ReachesVia (childAdj g) g.rootStop n v) := by
  refine ⟨ancestors_root_of_root g, ?_, ?_, ?_, ?_,
    mem_ancestors_root_iff g n, mem_descendents_root_iff g n⟩
  · exact Finset.not_mem_erase n _
  · exact Finset.not_mem_erase n _
  · rw [Graph.ancestors_root]
    split
    · exact Finset.not_mem_empty n
    · exact Finset.not_mem_erase n _
  · exact Finset.not_mem_erase n _

/-- C7: `prune_list` predicts `prune` exactly: the ids whose data `prune`
collects are the previewed set, the surviving nodes are precisely the
original nodes minus that set (no node outside it is deleted), and the
surviving edges are those avoiding the set. -/
theorem prune_matches_prune_list (g : Graph) (n : Nat) :
    (g.prune n).2 = g.prune_list n
    ∧ (g.prune n).1.nodes = g.nodes \ g.prune_list n
    ∧ (g.prune n).1.edges =
        g.edges.filter (fun e => ¬(e.1 ∈ g.prune_list n ∨ e.2 ∈ g.prune_list n))
    ∧ (g.prune n).1.root = g.root :=
  ⟨prune_deleted_eq g n, prune_nodes_eq g n, prune_edges_eq g n, by
    rw [Graph.prune]
    show (deleteNode _ n).root = g.root
    rw [deleteNode]
    exact foldl_deleteNode_root _ g⟩

/-- C4 counterexample graph: a graph holding only its root. -/
def exG1 : Graph := { nodes := {0}, edges := ∅, root := 0 }

/-- C4 as frozen is false: on a graph holding only its (childless) root,
`remove` on the root succeeds and deletes it, and `prune` on the root also
deletes the root. -/
theorem root_removal_cex :
    Graph.remove exG1 exG1.root = Except.ok { nodes := ∅, edges := ∅, root := 0 }
    ∧ exG1.root ∉ (Graph.prune exG1 exG1.root).1.nodes := by
  constructor
  · rfl
  · rw [prune_nodes_eq]
    simp [Graph.prune_list]

/-- C4 amended: `remove` refuses the root whenever the root has a child
(a childless root can be removed), and `prune` on a non-root node never
deletes the root: the root is not in the collected set and survives in the
graph. (`prune` invoked on the root itself does delete it.) -/
theorem root_removal_guard (g : Graph) (n : Nat) :
    ((childrenOf g g.root).Nonempty → g.remove g.root = Except.error Err.unremovableNode)
    ∧ (n ≠ g.root → g.root ∉ (g.prune n).2
        ∧ (g.root ∈ g.nodes → g.root ∈ (g.prune n).1.nodes)) := by
  constructor
  · intro hne
    rw [Graph.remove, if_pos]
    intro hcan
    rw [Graph.can_remove, ancestors_root_of_root] at hcan
    rcases hne with ⟨c, hc⟩
    split at hcan
    · rename_i hzero
      rw [Finset.card_eq_zero] at hzero
      rw [hzero] at hc
      exact Finset.not_mem_empty c hc
    · exact Finset.not_mem_empty c (of_decide_eq_true hcan hc)
  · intro hnr
    have hout : g.root ∉ g.prune_list n := by
      rw [Graph.prune_list, Finset.mem_insert]
      rintro (h | h)
      · exact hnr h.symm
      · exact (Finset.mem_erase.mp h).1 rfl
    refine ⟨by rw [prune_deleted_eq]; exact hout, ?_⟩
    intro hroot
    rw [prune_nodes_eq]
    exact Finset.mem_sdiff.mpr ⟨hroot, hout⟩

/-- Two-node graph used to witness the amended C4 at a concrete input. -/
def exG2 : Graph := { nodes := {0, 1}, edges := {(0, 1)}, root := 0 }

theorem root_removal_guard_concrete :
    Graph.remove exG2 exG2.root = Except.error Err.unremovableNode
    ∧ exG2.root ∉ (Graph.prune exG2 1).2
    ∧ exG2.root ∈ (Graph.prune exG2 1).1.nodes := by
  have h := root_removal_guard exG2 1
  refine ⟨h.1 ⟨1, by decide⟩, (h.2 (by decide)).1, (h.2 (by decide)).2 (by decide)⟩

/-- A `Rule` subclass: its declared `children` (by label) and its
`multiple_paths` flag.  `_MetaRule` gives every class one unique label, so
rules are identified by that label; the display name and label are
collapsed into the same identifier. -/
structure RuleSpec where
  children : List String
  multiple_paths : Bool
deriving DecidableEq

/-- The collection of defined `Rule` classes, keyed by label, plus the
`RuleSet`'s root rule label. -/
structure RuleSys where
  rules : List (String × RuleSpec)
  root : String

/-- Resolving a label to its class (`__import__` + `getattr`). -/
def lookupRule (rs : RuleSys) (l : String) : Option RuleSpec :=
  (rs.rules.find? (fun p => decide (p.1 = l))).map Prod.snd

/-- Source `rule.children` of the class behind label `l`. -/
def ruleChildren (rs : RuleSys) (l : String) : List String :=
  match lookupRule rs l with
  | none => []
  | some r => r.children

/-- Source `rule.multiple_paths` of the class behind label `l`. -/
def ruleMulti (rs : RuleSys) (l : String) : Bool :=
  match lookupRule rs l with
  | none => false
  | some r => r.multiple_paths

/-- Every label the registry mentions; the finite universe bounding the rule
graph traversal. -/
def ruleVerts (rs : RuleSys) : Finset String :=
  (rs.rules.map Prod.fst).toFinset ∪ (rs.rules.flatMap (fun p => p.2.children)).toFinset

lemma ruleChildren_support (rs : RuleSys) :
    ∀ l, l ∉ ruleVerts rs → ruleChildren rs l = [] := by
  intro l hl
  rw [ruleChildren]
  cases hfind : lookupRule rs l with
  | none => rfl
  | some r =>
    exfalso
    rw [lookupRule] at hfind
    rcases Option.map_eq_some'.mp hfind with ⟨p, hp, _⟩
    have hmem := List.mem_of_find?_eq_some hp
    have hkey' := List.find?_some hp
    simp only [decide_eq_true_eq] at hkey'
    have hkey : p.1 = l := hkey'
    apply hl
    rw [ruleVerts, Finset.mem_union]
    exact Or.inl (List.mem_toFinset.mpr (hkey ▸ List.mem_map_of_mem Prod.fst hmem))

/-- A `FlowNodeData` row: payload of one flow graph node, holding its
`rule_label`. -/
structure Flow where
  id : Nat
  graph : Graph
  ruleOf : Nat → String

/-- A `State` row: the flow it runs and its current node. -/
structure StateRow where
  flowId : Nat
  current : Nat
deriving DecidableEq

/-- The observable actions of a transition: the `on_leave` / `on_enter`
callbacks, the cursor assignment and `save()`. -/
inductive Act
  | callLeave (rule : String)
  | callEnter (rule : String)
  | setCurrent (n : Nat)
  | save
deriving DecidableEq

instance {ε α : Type} [DecidableEq ε] [DecidableEq α] :
    DecidableEq (Except ε α) := fun a b =>
  match a, b with
  | Except.error e1, Except.error e2 =>
    if h : e1 = e2 then isTrue (by rw [h]) else isFalse (fun hc => h (Except.error.inj hc))
  | Except.error _, Except.ok _ => isFalse (fun hc => Except.noConfusion hc)
  | Except.ok _, Except.error _ => isFalse (fun hc => Except.noConfusion hc)
  | Except.ok a1, Except.ok a2 =>
    if h : a1 = a2 then isTrue (by rw [h]) else isFalse (fun hc => h (Except.ok.inj hc))

/-- Source `FlowNodeData._child_allowed`: arity first (capacity 1 unless
`multiple_paths`, else the declared child count), then the duplicate scan
over existing children, then membership of the candidate in the declared
children. -/
def child_allowed (rs : RuleSys) (f : Flow) (n : Nat) (childLabel : String) :
    Except Err Unit :=
  let numKids := (childrenOf f.graph n).card
  let numKidsAllowed :=
    if ruleMulti rs (f.ruleOf n) then (ruleChildren rs (f.ruleOf n)).length else 1
  if numKidsAllowed ≤ numKids then Except.error Err.arityExceeded
  else if ∃ c ∈ childrenOf f.graph n, f.ruleOf c = childLabel then
    Except.error Err.duplicateChild
  else if childLabel ∉ ruleChildren rs (f.ruleOf n) then
    Except.error Err.illegalTransition
  else Except.ok ()

/-- Source `FlowNodeData.add_child_rule`: validate, then create the child node (its
fresh id supplied by the store) carrying the child rule's label. -/
def add_child_rule (rs : RuleSys) (f : Flow) (n : Nat) (childLabel : String)
    (newId : Nat) : Except Err Flow :=
  match child_allowed rs f n childLabel with
  | Except.error e => Except.error e
  | Except.ok _ =>
      Except.ok { id := f.id
                  graph := f.graph.add_child n newId
                  ruleOf := fun m => if m = newId then childLabel else f.ruleOf m }

/-- Source `FlowNodeData.connect_child`: same validation against the existing
node's rule, then edge only. -/
def connect_child (rs : RuleSys) (f : Flow) (n childNode : Nat) : Except Err Flow :=
  match child_allowed rs f n (f.ruleOf childNode) with
  | Except.error e => Except.error e
  | Except.ok _ =>
      Except.ok { id := f.id
                  graph := f.graph.connect_nodes n childNode
                  ruleOf := f.ruleOf }

/-- Source `Flow.in_use`: whether any `State` row references the flow. -/
def in_use (db : List StateRow) (flowId : Nat) : Bool :=
  ((db.filter (fun s => decide (s.flowId = flowId))).head?).isSome

/-- Source `State.start`: creates the row at the flow graph's root, then fires the
root rule's `on_enter`.  There is no failure path. -/
def start (f : Flow) (db : List StateRow) :
    StateRow × List StateRow × List Act :=
  let st : StateRow := { flowId := f.id, current := f.graph.root }
  (st, db ++ [st], [Act.callEnter (f.ruleOf f.graph.root)])

/-- The `next_node` resolution inside `State.next_state`: zero children
fail, one child is taken unconditionally (`children.first()`), several
children require a choice matched against the connected children's rule
labels. -/
def resolve_next (f : Flow) (st : StateRow) (ruleChoice : Option String) :
    Except Err Nat :=
  let kids := childrenOf f.graph st.current
  if kids.card = 0 then Except.error Err.noNextState
  else if kids.card = 1 then Except.ok ((kids.sort (· ≤ ·)).headD 0)
  else
    match ruleChoice with
    | none => Except.error Err.choiceRequired
    | some cl =>
      match (kids.sort (· ≤ ·)).find? (fun c => decide (f.ruleOf c = cl)) with
      | none => Except.error Err.invalidChoice
      | some nn => Except.ok nn

/-- Source `State.next_state`: resolve the next node, then fire `on_leave`,
`on_enter`, move the cursor and save. -/
def next_state (f : Flow) (st : StateRow) (ruleChoice : Option String) :
    Except Err (StateRow × List Act) :=
  match resolve_next f st ruleChoice with
  | Except.error e => Except.error e
  | Except.ok nn =>
      Except.ok ({ flowId := st.flowId, current := nn },
        [Act.callLeave (f.ruleOf st.current), Act.callEnter (f.ruleOf nn),
         Act.setCurrent nn, Act.save])

/-- Labels of the sample rules: `A` branches (`multiple_paths`) into `B`
and `C`; `C` cycles back to `A`. -/
def lblA : String := "rules.A"

def lblB : String := "rules.B"

def lblC : String := "rules.C"

/-- A label no rule of the sample registry carries. -/
def lblX : String := "rules.X"

def rsEx : RuleSys :=
  { rules := [(lblA, { children := [lblB, lblC], multiple_paths := true }),
              (lblB, { children := [], multiple_paths := false }),
              (lblC, { children := [lblA], multiple_paths := false })]
    root := lblA }

/-- A freshly created flow: only the root node, bound to the root rule. -/
def exFlow0 : Flow := { id := 7, graph := exG1, ruleOf := fun _ => lblA }

/-- Flow `A → B` (root node `0`, child node `1`). -/
def exFlow1 : Flow :=
  { id := 8, graph := exG2, ruleOf := fun m => if m = 1 then lblB else lblA }

/-- Branching flow: root `0` (`A`) with children `1` (`B`) and `2` (`C`). -/
def exG3 : Graph := { nodes := {0, 1, 2}, edges := {(0, 1), (0, 2)}, root := 0 }

def exFlow2 : Flow :=
  { id := 9, graph := exG3
    ruleOf := fun m => if m = 1 then lblB else if m = 2 then lblC else lblA }

/-- C1: `_child_allowed` checks in order — arity (capacity `1` unless
`multiple_paths`, else the declared child count), duplicate rule among the
existing children, then membership in the declared children — failing with
the first violated condition's error, succeeding when none is violated; and
`add_child_rule` / `connect_child` fail exactly when that validation
fails. -/
theorem child_validation_order (rs : RuleSys) (f : Flow) (n : Nat) (cl : String)
    (newId childNode : Nat) :
    ((if ruleMulti rs (f.ruleOf n) then (ruleChildren rs (f.ruleOf n)).length else 1)
        ≤ (childrenOf f.graph n).card →
      child_allowed rs f n cl = Except.error Err.arityExceeded)
    ∧ ((childrenOf f.graph n).card
          < (if ruleMulti rs (f.ruleOf n) then (ruleChildren rs (f.ruleOf n)).length else 1) →
        (∃ c ∈ childrenOf f.graph n, f.ruleOf c = cl) →
        child_allowed rs f n cl = Except.error Err.duplicateChild)
    ∧ ((childrenOf f.graph n).card
          < (if ruleMulti rs (f.ruleOf n) then (ruleChildren rs (f.ruleOf n)).length else 1) →
        (∀ c ∈ childrenOf f.graph n, f.ruleOf c ≠ cl) →
        cl ∉ ruleChildren rs (f.ruleOf n) →
        child_allowed rs f n cl = Except.error Err.illegalTransition)
    ∧ ((childrenOf f.graph n).card
          < (if ruleMulti rs (f.ruleOf n) then (ruleChildren rs (f.ruleOf n)).length else 1) →
        (∀ c ∈ childrenOf f.graph n, f.ruleOf c ≠ cl) →
        cl ∈ ruleChildren rs (f.ruleOf n) →
        child_allowed rs f n cl = Except.ok ())
    ∧ (∀ e, child_allowed rs f n cl = Except.error e →
        add_child_rule rs f n cl newId = Except.error e)
    ∧ (child_allowed rs f n cl = Except.ok () →
        ∃ f2, add_child_rule rs f n cl newId = Except.ok f2)
    ∧ (∀ e, child_allowed rs f n (f.ruleOf childNode) = Except.error e →
        connect_child rs f n childNode = Except.error e)
    ∧ (child_allowed rs f n (f.ruleOf childNode) = Except.ok () →
        ∃ f2, connect_child rs f n childNode = Except.ok f2) := by
  refine ⟨?_, ?_, ?_, ?_, ?_, ?_, ?_, ?_⟩
  · intro hcap
    rw [child_allowed]
    simp only [if_pos hcap]
  · intro hcap hdup
    rw [child_allowed]
    simp only [if_neg (Nat.not_le.mpr hcap), if_pos hdup]
  · intro hcap hdup hmem
    rw [child_allowed]
    have hnd : ¬ ∃ c ∈ childrenOf f.graph n, f.ruleOf c = cl := by
      rintro ⟨c, hc, hcl⟩
      exact hdup c hc hcl
    simp only [if_neg (Nat.not_le.mpr hcap), if_neg hnd, if_pos hmem]
  · intro hcap hdup hmem
    rw [child_allowed]
    have hnd : ¬ ∃ c ∈ childrenOf f.graph n, f.ruleOf c = cl := by
      rintro ⟨c, hc, hcl⟩
      exact hdup c hc hcl
    simp only [if_neg (Nat.not_le.mpr hcap), if_neg hnd,
      if_neg (not_not_intro hmem)]
  · intro e he
    rw [add_child_rule, he]
  · intro he
    rw [add_child_rule, he]
    exact ⟨_, rfl⟩
  · intro e he
    rw [connect_child, he]
  · intro he
    rw [connect_child, he]
    exact ⟨_, rfl⟩

theorem child_validation_order_concrete :
    child_allowed rsEx exFlow0 0 lblB = Except.ok ()
    ∧ (∃ f2, add_child_rule rsEx exFlow0 0 lblB 1 = Except.ok f2) := by
  have h := child_validation_order rsEx exFlow0 0 lblB 1 0
  have hok := h.2.2.2.1 (by decide) (by decide) (by decide)
  exact ⟨hok, h.2.2.2.2.2.1 hok⟩

/-- C2: every successful `next_state` fires the current rule's `on_leave`,
then the target rule's `on_enter` — each exactly once — and only then moves
the cursor to the target (an actual child of the current node) and saves. -/
lemma resolve_next_mem (f : Flow) (st : StateRow) (ch : Option String) (nn : Nat)
    (h : resolve_next f st ch = Except.ok nn) :
    nn ∈ childrenOf f.graph st.current := by
  simp only [resolve_next] at h
  split at h
  · exact absurd h (by simp)
  · split at h
    · rename_i h1
      rw [Except.ok.injEq] at h
      obtain ⟨a, ha⟩ := Finset.card_eq_one.mp h1
      rw [← h, ha, Finset.sort_singleton]
      simp [ha]
    · split at h
      · exact absurd h (by simp)
      · split at h
        · exact absurd h (by simp)
        · rename_i hfind
          rw [Except.ok.injEq] at h
          rw [← h]
          exact (Finset.mem_sort _).mp (List.mem_of_find?_eq_some hfind)

theorem transition_callback_order (f : Flow) (st : StateRow) (ch : Option String)
    (st2 : StateRow) (tr : List Act)
    (h : next_state f st ch = Except.ok (st2, tr)) :
    tr = [Act.callLeave (f.ruleOf st.current), Act.callEnter (f.ruleOf st2.current),
          Act.setCurrent st2.current, Act.save]
    ∧ st2.current ∈ childrenOf f.graph st.current
    ∧ st2.flowId = st.flowId
    ∧ tr.count (Act.callLeave (f.ruleOf st.current)) = 1
    ∧ tr.count (Act.callEnter (f.ruleOf st2.current)) = 1 := by
  rw [next_state] at h
  split at h
  · exact absurd h (by simp)
  · rename_i nn heq
    rw [Except.ok.injEq, Prod.mk.injEq] at h
    obtain ⟨hst2, htr⟩ := h
    have hmem : nn ∈ childrenOf f.graph st.current := resolve_next_mem f st ch nn heq
    subst hst2
    subst htr
    refine ⟨rfl, hmem, rfl, ?_, ?_⟩ <;> simp [List.count_cons, List.count_nil]

theorem transition_callback_order_concrete :
    next_state exFlow1 { flowId := 8, current := 0 } none =
      Except.ok ({ flowId := 8, current := 1 },
        [Act.callLeave lblA, Act.callEnter lblB, Act.setCurrent 1, Act.save])
    ∧ (1 : Nat) ∈ childrenOf exFlow1.graph 0 := by
  have hkids : childrenOf exG2 0 = {1} := by decide
  have hok : next_state exFlow1 { flowId := 8, current := 0 } none =
      Except.ok ({ flowId := 8, current := 1 },
        [Act.callLeave lblA, Act.callEnter lblB, Act.setCurrent 1, Act.save]) := by
    rw [next_state, resolve_next]
    simp [hkids, Finset.sort_singleton, exFlow1]
  have hc := transition_callback_order exFlow1 { flowId := 8, current := 0 } none
    { flowId := 8, current := 1 } _ hok
  exact ⟨hok, hc.2.1⟩

lemma next_state_of_resolve_error (f : Flow) (st : StateRow) (ch : Option String)
    (e : Err) (h : resolve_next f st ch = Except.error e) :
    next_state f st ch = Except.error e := by
  rw [next_state, h]

lemma next_state_of_resolve_ok (f : Flow) (st : StateRow) (ch : Option String)
    (nn : Nat) (h : resolve_next f st ch = Except.ok nn) :
    next_state f st ch =
      Except.ok ({ flowId := st.flowId, current := nn },
        [Act.callLeave (f.ruleOf st.current), Act.callEnter (f.ruleOf nn),
         Act.setCurrent nn, Act.save]) := by
  rw [next_state, h]

lemma resolve_next_zero (f : Flow) (st : StateRow) (ch : Option String)
    (h0 : (childrenOf f.graph st.current).card = 0) :
    resolve_next f st ch = Except.error Err.noNextState := by
  simp only [resolve_next, h0, if_pos]

lemma resolve_next_one (f : Flow) (st : StateRow) (ch : Option String)
    (h1 : (childrenOf f.graph st.current).card = 1) :
    resolve_next f st ch =
      Except.ok (((childrenOf f.graph st.current).sort (· ≤ ·)).headD 0) := by
  simp only [resolve_next, h1]
  norm_num

/-- C3: `next_state` fails with `NoNextState` on a childless current node;
with exactly one child it advances there and the supplied choice is ignored;
with several children it requires a choice (`ChoiceRequired`), rejects a
choice matching no connected child (`InvalidChoice`), and advances to a
connected child carrying the chosen rule. -/
theorem next_state_branching (f : Flow) (st : StateRow) :
    ((childrenOf f.graph st.current).card = 0 →
      ∀ ch, next_state f st ch = Except.error Err.noNextState)
    ∧ ((childrenOf f.graph st.current).card = 1 →
      ∀ ch, ∃ st2 tr, next_state f st ch = Except.ok (st2, tr)
        ∧ st2.current ∈ childrenOf f.graph st.current
        ∧ next_state f st ch = next_state f st none)
    ∧ (1 < (childrenOf f.graph st.current).card →
        next_state f st none = Except.error Err.choiceRequired)
    ∧ (1 < (childrenOf f.graph st.current).card →
        ∀ cl, (∀ c ∈ childrenOf f.graph st.current, f.ruleOf c ≠ cl) →
        next_state f st (some cl) = Except.error Err.invalidChoice)
    ∧ (1 < (childrenOf f.graph st.current).card →
        ∀ cl, (∃ c ∈ childrenOf f.graph st.current, f.ruleOf c = cl) →
        ∃ st2 tr, next_state f st (some cl) = Except.ok (st2, tr)
          ∧ st2.current ∈ childrenOf f.graph st.current
          ∧ f.ruleOf st2.current = cl) := by
  refine ⟨?_, ?_, ?_, ?_, ?_⟩
  · intro h0 ch
    exact next_state_of_resolve_error f st ch _ (resolve_next_zero f st ch h0)
  · intro h1 ch
    refine ⟨_, _, next_state_of_resolve_ok f st ch _ (resolve_next_one f st ch h1),
      resolve_next_mem f st ch _ (resolve_next_one f st ch h1), ?_⟩
    rw [next_state_of_resolve_ok f st ch _ (resolve_next_one f st ch h1),
      next_state_of_resolve_ok f st none _ (resolve_next_one f st none h1)]
  · intro hm
    refine next_state_of_resolve_error f st none _ ?_
    simp only [resolve_next]
    rw [if_neg (by omega), if_neg (by omega)]
  · intro hm cl hnone
    refine next_state_of_resolve_error f st (some cl) _ ?_
    simp only [resolve_next]
    rw [if_neg (by omega), if_neg (by omega)]
    have hfind : ((childrenOf f.graph st.current).sort (· ≤ ·)).find?
        (fun c => decide (f.ruleOf c = cl)) = none := by
      rw [List.find?_eq_none]
      intro x hx
      simp only [decide_eq_true_eq]
      exact hnone x ((Finset.mem_sort _).mp hx)
    rw [hfind]
  · intro hm cl hsome
    have hex : ∃ x, x ∈ ((childrenOf f.graph st.current).sort (· ≤ ·))
        ∧ (fun c => decide (f.ruleOf c = cl)) x := by
      rcases hsome with ⟨c, hc, hcl⟩
      exact ⟨c, (Finset.mem_sort _).mpr hc, by simpa using hcl⟩
    have hfs := List.find?_isSome.mpr hex
    rcases Option.isSome_iff_exists.mp hfs with ⟨nn, hfind⟩
    have hres : resolve_next f st (some cl) = Except.ok nn := by
      simp only [resolve_next]
      rw [if_neg (by omega), if_neg (by omega), hfind]
    refine ⟨_, _, next_state_of_resolve_ok f st (some cl) nn hres,
      resolve_next_mem f st (some cl) nn hres, ?_⟩
    have := List.find?_some hfind
    simpa using this

theorem next_state_branching_concrete :
    next_state exFlow1 { flowId := 8, current := 1 } none = Except.error Err.noNextState
    ∧ next_state exFlow2 { flowId := 9, current := 0 } none =
        Except.error Err.choiceRequired
    ∧ next_state exFlow2 { flowId := 9, current := 0 } (some lblX) =
        Except.error Err.invalidChoice
    ∧ (∃ st2 tr, next_state exFlow2 { flowId := 9, current := 0 } (some lblC) =
        Except.ok (st2, tr)
        ∧ st2.current ∈ childrenOf exFlow2.graph 0
        ∧ exFlow2.ruleOf st2.current = lblC) := by
  have h1 := next_state_branching exFlow1 { flowId := 8, current := 1 }
  have h2 := next_state_branching exFlow2 { flowId := 9, current := 0 }
  refine ⟨h1.1 (by decide) none, h2.2.2.1 (by decide),
    h2.2.2.2.1 (by decide) _ (by decide), h2.2.2.2.2 (by decide) lblC (by decide)⟩

/-- C5 amended: `State.start` never fails.  Every call — including a second
call on a flow that already has a `State` — creates one new `State` row
whose cursor is the flow graph's root and fires the root rule's `on_enter`
exactly once; the source has no already-started check. -/
theorem start_always_succeeds (f : Flow) (db : List StateRow) :
    (start f db).1.current = f.graph.root
    ∧ (start f db).1.flowId = f.id
    ∧ (start f db).2.1 = db ++ [(start f db).1]
    ∧ (start f db).2.2 = [Act.callEnter (f.ruleOf f.graph.root)] :=
  ⟨rfl, rfl, rfl, rfl⟩

/-- C5 as frozen is false: after a first `start` the flow is in use, yet a
second `start` on the same flow succeeds — it returns a root-cursor state,
fires `on_enter` again and appends a second row, raising no error. -/
theorem start_twice_succeeds_cex :
    in_use (start exFlow0 []).2.1 exFlow0.id = true
    ∧ (start exFlow0 (start exFlow0 []).2.1).1.current = exFlow0.graph.root
    ∧ (start exFlow0 (start exFlow0 []).2.1).2.2 = [Act.callEnter lblA]
    ∧ (start exFlow0 (start exFlow0 []).2.1).2.1.length = 2 := by
  decide

/-- A `State` row referencing flow `7` (`exFlow0`). -/
def exDb : List StateRow := [{ flowId := 7, current := 0 }]

/-- C6 (the violation the code exhibits): with a `State` row present the
flow reports `in_use`, yet `add_child_rule` performs no such check — the
legal child is added and the graph mutates. -/
theorem in_use_flow_edit_goes_through :
    in_use exDb exFlow0.id = true
    ∧ ∃ f2, add_child_rule rsEx exFlow0 0 lblB 1 = Except.ok f2
        ∧ f2.graph.nodes = insert 1 exFlow0.graph.nodes
        ∧ f2.graph.edges = insert (0, 1) exFlow0.graph.edges := by
  exact ⟨by decide, ⟨_, rfl, by decide, by decide⟩⟩

/-- A node entry of the cytoscape export: the id under the data key;
rule-graph entries also carry a label field. -/
structure CytoNode where
  id : String
  label : Option String
deriving DecidableEq

/-- An edge entry of the cytoscape export. -/
structure CytoEdge where
  id : String
  source : String
  target : String
deriving DecidableEq

/-- Node entry id of the generic graph export: `'n%s' % node.id`. -/
def nodeEntryId (n : Nat) : String := "n" ++ toString n

/-- Edge entry of the generic graph export: id `'e%s_%s'`, prefixed
source/target. -/
def graphEdgeEntry (p c : Nat) : CytoEdge :=
  { id := "e" ++ toString p ++ "_" ++ toString c
    source := nodeEntryId p
    target := nodeEntryId c }

/-- Source `DCCGraph.cytoscape_json`: one node entry per node of the graph and,
nested under it, one edge entry per child.  The `extra_fields` hook only
adds caller key/values and is not modelled (`label := none`). -/
def Graph.cytoscape_json (g : Graph) : List CytoNode × List CytoEdge :=
  ((g.nodes.sort (· ≤ ·)).map (fun n => { id := nodeEntryId n, label := none }),
   (g.nodes.sort (· ≤ ·)).flatMap (fun n => (childAdj g n).map (fun c => graphEdgeEntry n c)))

/-- Edge entry of the rule-graph export: unprefixed `'%s_%s'` names. -/
def ruleEdgeEntry (p c : String) : CytoEdge :=
  { id := p ++ "_" ++ c, source := p, target := c }

/-- Source `RuleSet._depth_cyto_traverse` as a worklist: an unvisited rule emits
its node entry (name as id and label) and one edge entry per declared child,
then its children are traversed; the visited set guards cycles. -/
def ruleCytoAux (rs : RuleSys) : List String → Finset String → List CytoNode × List CytoEdge
  | [], _ => ([], [])
  | r :: rest, vis =>
    if hr : r ∈ vis then ruleCytoAux rs rest vis
    else
      let res := ruleCytoAux rs (ruleChildren rs r ++ rest) (insert r vis)
      ({ id := r, label := some r } :: res.1,
       (ruleChildren rs r).map (fun c => ruleEdgeEntry r c) ++ res.2)
termination_by stack vis => (((ruleVerts rs) \ vis).card, stack.length)
decreasing_by
  · exact Prod.Lex.right _ (Nat.lt_succ_self _)
  · by_cases hU : r ∈ ruleVerts rs
    · have hss : (ruleVerts rs \ insert r vis) ⊂ (ruleVerts rs \ vis) := by
        apply Finset.ssubset_iff_of_subset
          (Finset.sdiff_subset_sdiff (Finset.Subset.refl _) (Finset.subset_insert _ _)) |>.mpr
        exact ⟨r, Finset.mem_sdiff.mpr ⟨hU, hr⟩, by simp⟩
      exact Prod.Lex.left _ _ (Finset.card_lt_card hss)
    · have hkids : ruleChildren rs r = [] := ruleChildren_support rs r hU
      have hcard : (ruleVerts rs \ insert r vis) = (ruleVerts rs \ vis) := by
        rw [Finset.sdiff_insert, Finset.erase_eq_of_not_mem]
        intro hmem
        exact hU (Finset.mem_sdiff.mp hmem).1
      rw [hcard, hkids]
      exact Prod.Lex.right _ (by simp [Nat.lt_succ_self])

/-- Source `RuleSet.cytoscape_json`: traverse from the root rule with an empty
visited set. -/
def RuleSys.cytoscape_json (rs : RuleSys) : List CytoNode × List CytoEdge :=
  ruleCytoAux rs [rs.root] ∅

/-- Rules reachable from `a` through declared-children links (reflexive). -/
inductive RuleReaches (rs : RuleSys) : String → String → Prop
  | refl (r : String) : RuleReaches rs r r
  | step {a b c : String} : RuleReaches rs a b → c ∈ ruleChildren rs b →
      RuleReaches rs a c

lemma ruleCyto_ids_nodup (rs : RuleSys) :
    ∀ stack vis, ((ruleCytoAux rs stack vis).1.map (fun x => x.id)).Nodup
      ∧ ∀ s ∈ (ruleCytoAux rs stack vis).1.map (fun x => x.id), s ∉ vis := by
  intro stack vis
  induction stack, vis using ruleCytoAux.induct rs with
  | case1 vis =>
    rw [ruleCytoAux]
    exact ⟨List.nodup_nil, by simp⟩
  | case2 r rest vis hr ih =>
    rw [ruleCytoAux, dif_pos hr]
    exact ih
  | case3 r rest vis hr ih =>
    rw [ruleCytoAux, dif_neg hr]
    simp only [List.map_cons, List.nodup_cons, List.mem_cons]
    refine ⟨⟨fun hmem => ?_, ih.1⟩, ?_⟩
    · exact (ih.2 _ hmem) (Finset.mem_insert_self r vis)
    · rintro s (rfl | hmem)
      · exact hr
      · intro hv
        exact (ih.2 s hmem) (Finset.mem_insert_of_mem hv)

lemma ruleCyto_edges_eq (rs : RuleSys) :
    ∀ stack vis, (ruleCytoAux rs stack vis).2 =
      ((ruleCytoAux rs stack vis).1.map (fun x => x.id)).flatMap
        (fun p => (ruleChildren rs p).map (fun c => ruleEdgeEntry p c)) := by
  intro stack vis
  induction stack, vis using ruleCytoAux.induct rs with
  | case1 vis => rw [ruleCytoAux]; rfl
  | case2 r rest vis hr ih => rw [ruleCytoAux, dif_pos hr]; exact ih
  | case3 r rest vis hr ih =>
    rw [ruleCytoAux, dif_neg hr]
    simp only [List.map_cons, List.flatMap_cons]
    rw [← ih]

lemma ruleCyto_entry_shape (rs : RuleSys) :
    ∀ stack vis, ∀ x ∈ (ruleCytoAux rs stack vis).1, x.label = some x.id := by
  intro stack vis
  induction stack, vis using ruleCytoAux.induct rs with
  | case1 vis => rw [ruleCytoAux]; simp
  | case2 r rest vis hr ih => rw [ruleCytoAux, dif_pos hr]; exact ih
  | case3 r rest vis hr ih =>
    rw [ruleCytoAux, dif_neg hr]
    rintro x hx
    rcases List.mem_cons.mp hx with rfl | hx
    · rfl
    · exact ih x hx

lemma ruleCyto_ids_mem_iff (rs : RuleSys) :
    ∀ stack vis s, s ∈ (ruleCytoAux rs stack vis).1.map (fun x => x.id) ↔
      (s ∈ dfsCore (ruleVerts rs) (ruleChildren rs) (ruleChildren_support rs)
          (fun _ => false) stack vis ∧ s ∉ vis) := by
  intro stack vis
  induction stack, vis using ruleCytoAux.induct rs with
  | case1 vis =>
    intro s
    rw [ruleCytoAux, dfsCore_nil]
    simp only [List.map_nil, List.not_mem_nil, false_iff]
    rintro ⟨hs, hns⟩
    exact hns hs
  | case2 r rest vis hr ih =>
    intro s
    rw [ruleCytoAux, dif_pos hr, dfsCore, if_neg (by simp), dif_pos hr]
    exact ih s
  | case3 r rest vis hr ih =>
    intro s
    rw [ruleCytoAux, dif_neg hr, dfsCore, if_neg (by simp), dif_neg hr]
    simp only [List.map_cons, List.mem_cons]
    constructor
    · rintro (rfl | hmem)
      · refine ⟨dfsCore_mono _ _ _ _ _ _ (Finset.mem_insert_self s vis), hr⟩
      · rcases (ih s).mp hmem with ⟨hdfs, hnv⟩
        exact ⟨hdfs, fun hv => hnv (Finset.mem_insert_of_mem hv)⟩
    · rintro ⟨hdfs, hnv⟩
      by_cases hsr : s = r
      · exact Or.inl hsr
      · exact Or.inr ((ih s).mpr ⟨hdfs, by simp [hsr, hnv]⟩)

lemma ruleReaches_iff (rs : RuleSys) (a s : String) :
    RuleReaches rs a s ↔
      (s = a ∨ ReachesVia (ruleChildren rs) (fun _ => false) a s) := by
  constructor
  · intro h
    induction h with
    | refl => exact Or.inl rfl
    | step hab hc ih =>
      rcases ih with rfl | hvia
      · exact Or.inr (ReachesVia.base hc)
      · exact Or.inr (ReachesVia.step hvia rfl hc)
  · rintro (rfl | hvia)
    · exact RuleReaches.refl s
    · induction hvia with
      | base h => exact RuleReaches.step (RuleReaches.refl a) h
      | step hr hw h ih => exact RuleReaches.step ih h

lemma childrenOf_subset_verts (g : Graph) (m : Nat) : childrenOf g m ⊆ verts g := by
  intro x hx
  simp only [childrenOf, Finset.mem_image, Finset.mem_filter] at hx
  rcases hx with ⟨e, ⟨he, _⟩, hsnd⟩
  simp only [verts, Finset.mem_union, Finset.mem_image]
  exact Or.inr ⟨e, he, hsnd⟩

lemma childrenOf_add_child (g : Graph) (p newId m : Nat) :
    childrenOf (g.add_child p newId) m =
      if p = m then insert newId (childrenOf g m) else childrenOf g m := by
  show ((insert (p, newId) g.edges).filter (fun e => e.1 = m)).image Prod.snd = _
  rw [Finset.filter_insert]
  by_cases hpm : p = m
  · rw [if_pos hpm, if_pos hpm, Finset.image_insert]
    rfl
  · rw [if_neg hpm, if_neg hpm]
    rfl

lemma childrenOf_connect_nodes (g : Graph) (p q m : Nat) :
    childrenOf (g.connect_nodes p q) m =
      if p = m then insert q (childrenOf g m) else childrenOf g m := by
  show ((insert (p, q) g.edges).filter (fun e => e.1 = m)).image Prod.snd = _
  rw [Finset.filter_insert]
  by_cases hpm : p = m
  · rw [if_pos hpm, if_pos hpm, Finset.image_insert]
    rfl
  · rw [if_neg hpm, if_neg hpm]
    rfl

/-- Pairwise-distinct rule labels among every node's children. -/
def DistinctChildLabels (f : Flow) : Prop :=
  ∀ n c1 c2, c1 ∈ childrenOf f.graph n → c2 ∈ childrenOf f.graph n →
    f.ruleOf c1 = f.ruleOf c2 → c1 = c2

/-- Flows as the Flow API produces them: `Flow.factory` (a one-node graph
whose root carries the rule set's root label) extended by successful
`add_child_rule` calls (the store supplies a fresh node id) and successful
`connect_child` calls. -/
inductive BuiltFlow (rs : RuleSys) : Flow → Prop
  | factory (fid rootId : Nat) (lbl : String) :
      BuiltFlow rs { id := fid
                     graph := { nodes := {rootId}, edges := ∅, root := rootId }
                     ruleOf := fun _ => lbl }
  | add_rule {f f2 : Flow} {n newId : Nat} {cl : String} :
      BuiltFlow rs f → newId ∉ verts f.graph →
      add_child_rule rs f n cl newId = Except.ok f2 → BuiltFlow rs f2
  | connect {f f2 : Flow} {n m : Nat} :
      BuiltFlow rs f → connect_child rs f n m = Except.ok f2 → BuiltFlow rs f2

lemma child_allowed_ok_no_dup (rs : RuleSys) (f : Flow) (n : Nat) (cl : String)
    (h : child_allowed rs f n cl = Except.ok ()) :
    ∀ c ∈ childrenOf f.graph n, f.ruleOf c ≠ cl := by
  intro c hc hcl
  simp only [child_allowed] at h
  by_cases ha : (if ruleMulti rs (f.ruleOf n) then (ruleChildren rs (f.ruleOf n)).length
      else 1) ≤ (childrenOf f.graph n).card
  · rw [if_pos ha] at h
    exact absurd h (by simp)
  · rw [if_neg ha, if_pos ⟨c, hc, hcl⟩] at h
    exact absurd h (by simp)

lemma add_child_rule_ok_elim (rs : RuleSys) (f : Flow) (n : Nat) (cl : String)
    (newId : Nat) (f2 : Flow) (h : add_child_rule rs f n cl newId = Except.ok f2) :
    child_allowed rs f n cl = Except.ok ()
    ∧ f2 = { id := f.id
             graph := f.graph.add_child n newId
             ruleOf := fun m => if m = newId then cl else f.ruleOf m } := by
  rw [add_child_rule] at h
  cases hca : child_allowed rs f n cl with
  | error e =>
    rw [hca] at h
    exact absurd h (by simp)
  | ok u =>
    cases u
    rw [hca] at h
    rw [Except.ok.injEq] at h
    exact ⟨rfl, h.symm⟩

lemma connect_child_ok_elim (rs : RuleSys) (f : Flow) (n q : Nat) (f2 : Flow)
    (h : connect_child rs f n q = Except.ok f2) :
    child_allowed rs f n (f.ruleOf q) = Except.ok ()
    ∧ f2 = { id := f.id, graph := f.graph.connect_nodes n q, ruleOf := f.ruleOf } := by
  rw [connect_child] at h
  cases hca : child_allowed rs f n (f.ruleOf q) with
  | error e =>
    rw [hca] at h
    exact absurd h (by simp)
  | ok u =>
    cases u
    rw [hca] at h
    rw [Except.ok.injEq] at h
    exact ⟨rfl, h.symm⟩

lemma distinct_preserved_add (rs : RuleSys) (f : Flow) (n : Nat) (cl : String)
    (newId : Nat) (f2 : Flow) (hf : DistinctChildLabels f)
    (hfresh : newId ∉ verts f.graph)
    (h : add_child_rule rs f n cl newId = Except.ok f2) :
    DistinctChildLabels f2 := by
  obtain ⟨hca, rfl⟩ := add_child_rule_ok_elim rs f n cl newId f2 h
  have hnd := child_allowed_ok_no_dup rs f n cl hca
  intro m c1 c2 hc1 hc2 heq
  simp only [childrenOf_add_child] at hc1 hc2
  have heq2 : (if c1 = newId then cl else f.ruleOf c1)
      = (if c2 = newId then cl else f.ruleOf c2) := heq
  have hrule : ∀ c ∈ childrenOf f.graph m,
      (if c = newId then cl else f.ruleOf c) = f.ruleOf c := by
    intro c hc
    rw [if_neg]
    rintro rfl
    exact hfresh (childrenOf_subset_verts f.graph m hc)
  by_cases hnm : n = m
  · rw [if_pos hnm] at hc1 hc2
    subst hnm
    rcases Finset.mem_insert.mp hc1 with h1 | h1 <;>
      rcases Finset.mem_insert.mp hc2 with h2 | h2
    · rw [h1, h2]
    · exfalso
      rw [if_pos h1, hrule c2 h2] at heq2
      exact hnd c2 h2 heq2.symm
    · exfalso
      rw [hrule c1 h1, if_pos h2] at heq2
      exact hnd c1 h1 heq2
    · rw [hrule c1 h1, hrule c2 h2] at heq2
      exact hf n c1 c2 h1 h2 heq2
  · rw [if_neg hnm] at hc1 hc2
    rw [hrule c1 hc1, hrule c2 hc2] at heq2
    exact hf m c1 c2 hc1 hc2 heq2

lemma distinct_preserved_connect (rs : RuleSys) (f : Flow) (n q : Nat) (f2 : Flow)
    (hf : DistinctChildLabels f) (h : connect_child rs f n q = Except.ok f2) :
    DistinctChildLabels f2 := by
  obtain ⟨hca, rfl⟩ := connect_child_ok_elim rs f n q f2 h
  have hnd := child_allowed_ok_no_dup rs f n (f.ruleOf q) hca
  intro m c1 c2 hc1 hc2 heq
  simp only [childrenOf_connect_nodes] at hc1 hc2
  have heq2 : f.ruleOf c1 = f.ruleOf c2 := heq
  by_cases hnm : n = m
  · rw [if_pos hnm] at hc1 hc2
    subst hnm
    rcases Finset.mem_insert.mp hc1 with h1 | h1 <;>
      rcases Finset.mem_insert.mp hc2 with h2 | h2
    · rw [h1, h2]
    · exfalso
      rw [h1] at heq2
      exact hnd c2 h2 heq2.symm
    · exfalso
      rw [h2] at heq2
      exact hnd c1 h1 heq2
    · exact hf n c1 c2 h1 h2 heq2
  · rw [if_neg hnm] at hc1 hc2
    exact hf m c1 c2 hc1 hc2 heq2

lemma resolve_next_choice_label (f : Flow) (st : StateRow) (cl : String) (nn : Nat)
    (hm : 1 < (childrenOf f.graph st.current).card)
    (h : resolve_next f st (some cl) = Except.ok nn) : f.ruleOf nn = cl := by
  simp only [resolve_next] at h
  rw [if_neg (by omega), if_neg (by omega)] at h
  cases hfind : ((childrenOf f.graph st.current).sort (· ≤ ·)).find?
      (fun c => decide (f.ruleOf c = cl)) with
  | none =>
    rw [hfind] at h
    exact absurd h (by simp)
  | some nn2 =>
    rw [hfind] at h
    rw [Except.ok.injEq] at h
    subst h
    have := List.find?_some hfind
    simpa using this

/-- C10: every flow reachable through the Flow API keeps the rule labels of
each node's children pairwise distinct (the duplicate check of
`_child_allowed` preserves the invariant `Flow.factory` starts with), so in
the multi-child branch of `next_state` a rule choice matches at most one
connected child: the resolved target is the unique child carrying the
chosen label. -/
theorem rule_labels_distinct_and_choice_unique (rs : RuleSys) (f : Flow)
    (hb : BuiltFlow rs f) :
    DistinctChildLabels f
    ∧ (∀ st cl st2 tr, 1 < (childrenOf f.graph st.current).card →
        next_state f st (some cl) = Except.ok (st2, tr) →
        ∀ c ∈ childrenOf f.graph st.current, f.ruleOf c = cl → c = st2.current) := by
  have hdist : DistinctChildLabels f := by
    induction hb with
    | factory fid rootId lbl =>
      intro n c1 c2 hc1 _ _
      exfalso
      simp only [childrenOf, Finset.filter_empty, Finset.image_empty] at hc1
      exact Finset.not_mem_empty c1 hc1
    | add_rule hbf hfresh hok ih =>
      exact distinct_preserved_add _ _ _ _ _ _ ih hfresh hok
    | connect hbf hok ih =>
      exact distinct_preserved_connect _ _ _ _ _ ih hok
  refine ⟨hdist, ?_⟩
  intro st cl st2 tr hm hok c hc hcl
  rw [next_state] at hok
  split at hok
  · exact absurd hok (by simp)
  · rename_i nn heq
    rw [Except.ok.injEq, Prod.mk.injEq] at hok
    have hnn : nn ∈ childrenOf f.graph st.current := resolve_next_mem f st _ nn heq
    have hlbl : f.ruleOf nn = cl := resolve_next_choice_label f st cl nn hm heq
    have := hdist st.current c nn hc hnn (by rw [hcl, hlbl])
    rw [this, ← hok.1]

/-- The flow `A → B` as one `add_child_rule` call builds it on top of
`Flow.factory`. -/
def exFlowB : Flow :=
  { id := 7
    graph := exG1.add_child 0 1
    ruleOf := fun m => if m = 1 then lblB else lblA }

/-- The flow `A → {B, C}` exactly as two `add_child_rule` calls build it on
top of `Flow.factory`. -/
def exFlowBC : Flow :=
  { id := 7
    graph := (exG1.add_child 0 1).add_child 0 2
    ruleOf := fun m => if m = 2 then lblC else if m = 1 then lblB else lblA }

theorem rule_labels_distinct_and_choice_unique_concrete :
    ∃ st2 tr, next_state exFlowBC { flowId := 7, current := 0 } (some lblC) =
        Except.ok (st2, tr) ∧ st2.current = 2 := by
  have hadd1 : add_child_rule rsEx exFlow0 0 lblB 1 = Except.ok exFlowB := rfl
  have hadd2 : add_child_rule rsEx exFlowB 0 lblC 2 = Except.ok exFlowBC := rfl
  have hb0 : BuiltFlow rsEx exFlow0 := BuiltFlow.factory 7 0 lblA
  have hb1 : BuiltFlow rsEx exFlowB :=
    @BuiltFlow.add_rule rsEx exFlow0 exFlowB 0 1 lblB hb0 (by decide) hadd1
  have hbuilt : BuiltFlow rsEx exFlowBC :=
    @BuiltFlow.add_rule rsEx exFlowB exFlowBC 0 2 lblC hb1 (by decide) hadd2
  have hex : ∃ x, x ∈ ((childrenOf exFlowBC.graph 0).sort (· ≤ ·))
      ∧ (fun c => decide (exFlowBC.ruleOf c = lblC)) x :=
    ⟨2, (Finset.mem_sort _).mpr (by decide), by decide⟩
  rcases Option.isSome_iff_exists.mp (List.find?_isSome.mpr hex) with ⟨nn, hfind⟩
  have hres : resolve_next exFlowBC { flowId := 7, current := 0 } (some lblC) =
      Except.ok nn := by
    simp only [resolve_next]
    rw [if_neg (by decide), if_neg (by decide), hfind]
  have hok := next_state_of_resolve_ok exFlowBC { flowId := 7, current := 0 }
    (some lblC) nn hres
  have h2 := (rule_labels_distinct_and_choice_unique rsEx exFlowBC hbuilt).2
    { flowId := 7, current := 0 } lblC _ _ (by decide) hok 2 (by decide) (by decide)
  exact ⟨_, _, hok, h2.symm⟩

/-- C9: the generic graph export emits one node entry per node with
prefixed id `n<id>` and one edge entry per parent→child pair with id
`e<src>_<dst>` and prefixed endpoints; the rule-graph export emits exactly
one node entry per distinct rule reachable from the root — terminating on
cyclic and self-referential rule graphs via the visited set — with the
rule's unprefixed name as id (also its label), and one edge entry
`<parent>_<child>` per declared child of every emitted rule. -/
theorem cytoscape_export_shape (g : Graph) (rs : RuleSys) :
    (g.cytoscape_json.1.map (fun x => x.id) =
        (g.nodes.sort (· ≤ ·)).map (fun n => nodeEntryId n))
    ∧ g.cytoscape_json.1.length = g.nodes.card
    ∧ (∀ p c, p ∈ g.nodes → c ∈ childrenOf g p →
        graphEdgeEntry p c ∈ g.cytoscape_json.2)
    ∧ (∀ e ∈ g.cytoscape_json.2, ∃ p c, p ∈ g.nodes ∧ c ∈ childrenOf g p ∧
        e = graphEdgeEntry p c)
    ∧ g.cytoscape_json.2.length =
        ((g.nodes.sort (· ≤ ·)).map (fun n => (childrenOf g n).card)).sum
    ∧ (rs.cytoscape_json.1.map (fun x => x.id)).Nodup
    ∧ (∀ s, s ∈ rs.cytoscape_json.1.map (fun x => x.id) ↔ RuleReaches rs rs.root s)
    ∧ (∀ x ∈ rs.cytoscape_json.1, x.label = some x.id)
    ∧ rs.cytoscape_json.2 =
        (rs.cytoscape_json.1.map (fun x => x.id)).flatMap
          (fun p => (ruleChildren rs p).map (fun c => ruleEdgeEntry p c)) := by
  refine ⟨?_, ?_, ?_, ?_, ?_, (ruleCyto_ids_nodup rs _ _).1, ?_,
    ruleCyto_entry_shape rs _ _, ruleCyto_edges_eq rs _ _⟩
  · rw [Graph.cytoscape_json]
    simp [List.map_map, Function.comp]
  · rw [Graph.cytoscape_json]
    simp [Finset.length_sort]
  · intro p c hp hc
    rw [Graph.cytoscape_json]
    simp only [List.mem_flatMap, List.mem_map, childAdj, Finset.mem_sort]
    exact ⟨p, hp, c, hc, rfl⟩
  · intro e he
    rw [Graph.cytoscape_json] at he
    simp only [List.mem_flatMap, List.mem_map, childAdj, Finset.mem_sort] at he
    rcases he with ⟨p, hp, c, hc, rfl⟩
    exact ⟨p, c, hp, hc, rfl⟩
  · rw [Graph.cytoscape_json]
    simp only [List.flatMap, List.length_flatten, List.map_map]
    congr 1
    refine List.map_congr_left ?_
    intro n hn
    simp [Function.comp, childAdj, Finset.length_sort]
  · intro s
    rw [RuleSys.cytoscape_json, ruleCyto_ids_mem_iff, ruleReaches_iff]
    constructor
    · rintro ⟨hdfs, -⟩
      rcases (dfsCore_mem_iff _ _ _ _ _ _).mp hdfs with ⟨u, hu, h⟩
      rcases List.mem_singleton.mp hu with rfl
      rcases h with rfl | ⟨-, hvia⟩
      · exact Or.inl rfl
      · exact Or.inr hvia
    · intro h
      refine ⟨(dfsCore_mem_iff _ _ _ _ _ _).mpr ?_, Finset.not_mem_empty s⟩
      rcases h with rfl | hvia
      · exact ⟨rs.root, List.mem_singleton_self _, Or.inl rfl⟩
      · exact ⟨rs.root, List.mem_singleton_self _, Or.inr ⟨rfl, hvia⟩⟩

end Flowr
